import Mathlib

/-!
Verification of the tree renderer in
src/Python_Learning_Path/Pipenv_test/module_tree.py.

The source walks a possibly cyclic graph of Python modules obtained by
runtime reflection and prints a box-drawing tree.  The embedding models a
module graph as a total map from module identities (the Python id of the
module object) to reflection data, and translates each helper of the
source file into an executable Lean function.  Python strings are compared
and transformed on their code points, which is what the data field of a
Lean String holds.
-/

namespace ModuleTree

/-! Glyphs, module_tree.py lines 10-13. -/

def TREE_BRANCH : String := "├── "

def TREE_LAST : String := "└── "

def TREE_PIPE : String := "│   "

def TREE_SPACE : String := "    "

/-! Python string primitives.  The built-in Lean String functions walk
byte positions and do not reduce in the kernel, so the same operations are
written here on the underlying code-point list. -/

/-- Python str.lower, mapped over code points (names here are ASCII). -/
def pyLower (s : String) : String := ⟨s.data.map Char.toLower⟩

/-- Python string comparison: strict lexicographic order on code points. -/
def ltCharsB : List Char → List Char → Bool
  | [], [] => false
  | [], _ :: _ => true
  | _ :: _, [] => false
  | a :: as, b :: bs =>
    if a.toNat < b.toNat then true
    else if b.toNat < a.toNat then false
    else ltCharsB as bs

/-- Python a <= b on strings. -/
def pyStrLe (a b : String) : Bool := !(ltCharsB b.data a.data)

/-- module_tree.py lines 15-16: name.startswith with the underscore. -/
def is_private (name : String) : Bool :=
  match name.data with
  | [] => false
  | c :: _ => c == '_'

/-- Stable insertion of one element with respect to a sort key.  Python
list.sort with a key function is a stable sort, and a stable sort for a
fixed key function is uniquely determined, so insertion sort computes the
same list as the sort calls of the source. -/
def sortInsert {α : Type} (key : α → String) (a : α) : List α → List α
  | [] => [a]
  | b :: l => if pyStrLe (key a) (key b) then a :: b :: l else b :: sortInsert key a l

/-- Stable sort by a string key, the model of list.sort(key=...). -/
def sortByKey {α : Type} (key : α → String) : List α → List α
  | [] => []
  | a :: l => sortInsert key a (sortByKey key l)

/-- The sort key lambda x: x[0].lower() used on (name, object) pairs. -/
def byLowerName {α : Type} (p : String × α) : String := pyLower p.1

/-! Data model of the reflection results consumed by the source. -/

/-- One entry of inspect.getmembers on a class object: its name, whether
it is a function or method descriptor, whether its name occurs in the
class dict, and its docstring as returned by inspect.getdoc. -/
structure MemberEntry where
  name : String
  isFuncOrDescr : Bool
  inDict : Bool
  doc : String
deriving DecidableEq

/-- Reflection data of a class object: its dunder module attribute, its
docstring, and its getmembers listing. -/
structure ClassData where
  pymodule : String
  doc : String
  members : List MemberEntry
deriving DecidableEq

/-- Reflection data of a plain function object. -/
structure FuncData where
  pymodule : String
  doc : String
deriving DecidableEq

/-- Classification of one getmembers entry of a module, following the
inspect predicates used in module_tree.py lines 20-26: a class, a plain
function, a module object, some other routine (builtins, methods, method
descriptors), or a plain value carrying its repr string. -/
inductive PyMember where
  | cls (c : ClassData)
  | func (f : FuncData)
  | modRef
  | routine
  | value (rpr : String)

/-- Reflection data of one module object: its dunder name, whether it has
a dunder path (is a package), the pkgutil listing of its submodules where
none marks a child whose import raises, and its getmembers listing. -/
structure ModuleData where
  name : String
  hasPath : Bool
  subs : List (String × Option Nat)
  members : List (String × PyMember)

/-- A module graph: reflection data indexed by module identity. -/
def ModGraph : Type := Nat → ModuleData

/-- The classification loop of _yield_members_sorted, lines 19-26.  A
class or function owned by another module satisfies isclass or isroutine,
so the final elif drops it from the others bucket as well. -/
def classifyMembers (modName : String) :
    List (String × PyMember) →
      List (String × ClassData) × List (String × FuncData) × List (String × String)
  | [] => ([], [], [])
  | (n, o) :: rest =>
    let r := classifyMembers modName rest
    match o with
    | .cls c => if c.pymodule == modName then ((n, c) :: r.1, r.2.1, r.2.2) else r
    | .func f => if f.pymodule == modName then (r.1, (n, f) :: r.2.1, r.2.2) else r
    | .modRef => r
    | .routine => r
    | .value rpr => (r.1, r.2.1, (n, rpr) :: r.2.2)

/-- _yield_members_sorted, lines 18-30: classify, then sort each bucket
case-insensitively by name. -/
def yield_members_sorted (m : ModuleData) :
    List (String × ClassData) × List (String × FuncData) × List (String × String) :=
  let r := classifyMembers m.name m.members
  (sortByKey byLowerName r.1, sortByKey byLowerName r.2.1, sortByKey byLowerName r.2.2)

/-- _iter_submodules, lines 32-39: nothing without a dunder path; a child
whose import raises is skipped by the except clause and the iteration
continues with the remaining children. -/
def iter_submodules (m : ModuleData) : List (String × Nat) :=
  if m.hasPath then
    m.subs.filterMap (fun p =>
      match p.2 with
      | some i => some (p.1, i)
      | none => none)
  else []

/-! The first-doc-line helper doc1, lines 44-49. -/

/-- Python whitespace test for str.strip (ASCII whitespace). -/
def pyIsSpace (c : Char) : Bool :=
  c == ' ' || c == '\t' || c == '\n' || c == '\r' || c == '\x0b' || c == '\x0c'

/-- Python str.strip. -/
def pyStrip (s : String) : String :=
  ⟨((s.data.dropWhile pyIsSpace).reverse.dropWhile pyIsSpace).reverse⟩

def isLineBreak (c : Char) : Bool := c == '\n' || c == '\r'

/-- First element of str.splitlines of a stripped string: the code points
before the first line break.  inspect.getdoc never returns a nonempty
string of pure whitespace, so on reachable inputs this is total where the
source indexes element zero. -/
def firstLineOf (s : String) : String :=
  ⟨s.data.takeWhile (fun c => !(isLineBreak c))⟩

/-- doc1, lines 44-49: empty unless show_doc, else an em-dash suffix
holding the first line of the stripped docstring. -/
def doc1 (show_doc : Bool) (d : String) : String :=
  if !show_doc then ""
  else if d == "" then ""
  else
    let first := firstLineOf (pyStrip d)
    if first == "" then "" else " — " ++ first

/-! Items of one listing, walk_module lines 60-86. -/

/-- One entry of the items list built in walk_module: the kind tag, the
name, and the payload the later loop needs (child identity for a
submodule, reflection data for a class or function, the truncated preview
for a constant). -/
inductive Item where
  | submodule (name : String) (child : Nat)
  | classItem (name : String) (c : ClassData)
  | functionItem (name : String) (f : FuncData)
  | constItem (name : String) (preview : String)
deriving DecidableEq

def itemName : Item → String
  | .submodule n _ => n
  | .classItem n _ => n
  | .functionItem n _ => n
  | .constItem n _ => n

/-- Position of the kind in the fixed bucket order of the items list. -/
def kindIdx : Item → Nat
  | .submodule _ _ => 0
  | .classItem _ _ => 1
  | .functionItem _ _ => 2
  | .constItem _ _ => 3

def isSubItem (it : Item) : Bool := kindIdx it == 0

/-- The three options of the command line, main lines 119-121. -/
structure Config where
  maxDepth : Nat
  includePrivate : Bool
  showDoc : Bool

/-- The private filter applied at every append site: an entry survives
when include_private is set or its name is not private. -/
def keepName (cfg : Config) (n : String) : Bool :=
  cfg.includePrivate || !(is_private n)

/-- Lines 83-85: a repr longer than 60 code points is cut to its first 57
code points followed by three dots. -/
def truncPreview (rpr : String) : String :=
  if rpr.length > 60 then String.mk (rpr.data.take 57) ++ "..." else rpr

/-- The text of one item line after the connector, lines 88-92: constants
were stored as name = preview, classes and functions get the doc1 suffix,
submodules are the bare name. -/
def itemText (cfg : Config) : Item → String
  | .submodule n _ => n
  | .classItem n c => n ++ doc1 cfg.showDoc c.doc
  | .functionItem n f => n ++ doc1 cfg.showDoc f.doc
  | .constItem n p => n ++ " = " ++ p

/-- The items list of one call of walk_module, lines 60-86: submodules
(only below the depth bound) sorted and filtered, then the sorted and
filtered classes, functions and constants. -/
def buildItems (cfg : Config) (m : ModuleData) (depth : Nat) : List Item :=
  let subItems :=
    if depth < cfg.maxDepth then
      ((sortByKey byLowerName (iter_submodules m)).filter (fun p => keepName cfg p.1)).map
        (fun p => Item.submodule p.1 p.2)
    else []
  let r := yield_members_sorted m
  subItems
    ++ (r.1.filter (fun p => keepName cfg p.1)).map (fun p => Item.classItem p.1 p.2)
    ++ (r.2.1.filter (fun p => keepName cfg p.1)).map (fun p => Item.functionItem p.1 p.2)
    ++ (r.2.2.filter (fun p => keepName cfg p.1)).map
        (fun p => Item.constItem p.1 (truncPreview p.2))

/-- The own list of walk_module lines 97-105: members that pass the
private filter, are functions or method descriptors, and occur in the
class dict, sorted case-insensitively by name. -/
def ownMembers (cfg : Config) (c : ClassData) : List MemberEntry :=
  sortByKey (fun e => pyLower e.name)
    (c.members.filter (fun e => keepName cfg e.name && e.isFuncOrDescr && e.inDict))

/-- The member sub-level printed under a class item, lines 96-109. -/
def memberLines (cfg : Config) (pfx : String) (isLast : Bool) (c : ClassData) :
    List String :=
  let own := ownMembers cfg c
  own.enum.map (fun p =>
    pfx ++ (if isLast then TREE_SPACE else TREE_PIPE)
      ++ (if p.1 == own.length - 1 then TREE_LAST else TREE_BRANCH)
      ++ p.2.name ++ doc1 cfg.showDoc p.2.doc)

/-- The body of walk_module lines 95-112 for one item: below the depth
bound a class item yields its member sub-level and a submodule item a
recursive walk (abstracted as wm) on the prefix extended by the
continuation segment of its position; other items yield nothing. -/
def walkChild (wm : Nat → String → Nat → List Nat → List String × List Nat)
    (cfg : Config) (pfx : String) (depth : Nat) (item : Item) (isLast : Bool)
    (visited : List Nat) : List String × List Nat :=
  if depth < cfg.maxDepth then
    match item with
    | .classItem _ c => (memberLines cfg pfx isLast c, visited)
    | .submodule _ cid =>
        wm cid (pfx ++ (if isLast then TREE_SPACE else TREE_PIPE)) (depth + 1) visited
    | _ => ([], visited)
  else ([], visited)

/-- The enumerate loop of walk_module, lines 88-112, with the recursive
descent abstracted as the function wm.  The connector is the corner glyph
exactly on the final position; a class item gets its member sub-level and
a submodule item gets a recursive walk, both only below the depth bound,
with the continuation segment chosen by the same final-position test. -/
def walkItems (wm : Nat → String → Nat → List Nat → List String × List Nat)
    (cfg : Config) (pfx : String) (depth : Nat) (total : Nat) :
    List Item → Nat → List Nat → List String × List Nat
  | [], _, visited => ([], visited)
  | item :: rest, i, visited =>
    let isLast := i == total - 1
    let line := pfx ++ (if isLast then TREE_LAST else TREE_BRANCH) ++ itemText cfg item
    let child := walkChild wm cfg pfx depth item isLast visited
    let rest2 := walkItems wm cfg pfx depth total rest (i + 1) child.2
    (line :: (child.1 ++ rest2.1), rest2.2)

/-- walk_module, lines 51-112.  The source recursion is bounded: descent
happens only while depth is below the maximum, so the fuel argument, set
to maxDepth + 1 at the top call, never reaches the zero branch on a
reachable call; this is proved as fuel stability below. -/
def walk_module (g : ModGraph) (cfg : Config) :
    Nat → Nat → String → Nat → List Nat → List String × List Nat
  | 0, _, _, _, visited => ([], visited)
  | fuel + 1, mid, pfx, depth, visited =>
    if mid ∈ visited then
      ([pfx ++ TREE_LAST ++ "(already visited)"], visited)
    else
      let visited2 := mid :: visited
      if depth > cfg.maxDepth then ([], visited2)
      else
        let items := buildItems cfg (g mid) depth
        walkItems (fun cid p d v => walk_module g cfg fuel cid p d v)
          cfg pfx depth items.length items 0 visited2

/-- module_tree, lines 41-114: one walk from the root with a fresh
visited set. -/
def module_tree (g : ModGraph) (root : Nat) (cfg : Config) : List String :=
  (walk_module g cfg (cfg.maxDepth + 1) root "" 0 []).1

/-- main, lines 124-126: the requested root name on its own line, then
the walk output. -/
def render (g : ModGraph) (root : Nat) (rootName : String) (cfg : Config) :
    List String :=
  rootName :: module_tree g root cfg

/-! Derived notions used to state the claims. -/

/-- One continuation segment of a line: the blank unit under a last
sibling, the bar unit otherwise. -/
def segStr (b : Bool) : String := if b then TREE_SPACE else TREE_PIPE

/-- A concatenation of continuation segments, the shape of every prefix
passed to walk_module. -/
def segJoin : List Bool → String
  | [] => ""
  | b :: l => segStr b ++ segJoin l

/-- A connector: the corner glyph for a last sibling, the tee glyph
otherwise. -/
def connStr (b : Bool) : String := if b then TREE_LAST else TREE_BRANCH

/-- The ancestry depth of a printed line is at most n: the line consists
of at most n continuation segments, then a connector, then text. -/
def LineDepthLE (line : String) (n : Nat) : Prop :=
  ∃ l b t, List.length l ≤ n ∧ line = segJoin l ++ (connStr b ++ t)

/-- Closed form of the item loop when no child output is produced: one
line per item, connector chosen by position. -/
def itemLinesFrom (cfg : Config) (total : Nat) : List Item → Nat → List String
  | [], _ => []
  | it :: rest, i =>
    ((if i == total - 1 then TREE_LAST else TREE_BRANCH) ++ itemText cfg it)
      :: itemLinesFrom cfg total rest (i + 1)

/-- Descendant-block description of one sibling listing: block j starts
with the head line of item j, carrying the corner connector exactly on
the final position, and every further line of block j starts with the
continuation segment chosen by the same test. -/
def BlocksSpec (cfg : Config) (pfx : String) (total : Nat) :
    List Item → Nat → List (String × List String) → Prop
  | [], _, blocks => blocks = []
  | it :: rest, i, blocks =>
    match blocks with
    | [] => False
    | b :: bs =>
      b.1 = pfx ++ (if i == total - 1 then TREE_LAST else TREE_BRANCH) ++ itemText cfg it ∧
      (∀ line ∈ b.2,
        ∃ t, line = (pfx ++ (if i == total - 1 then TREE_SPACE else TREE_PIPE)) ++ t) ∧
      BlocksSpec cfg pfx total rest (i + 1) bs

/-- Bucket-then-name order on items: the kind buckets appear in the fixed
order submodule, class, function, constant, and inside one bucket the
names are in case-insensitive code-point order. -/
def itemLe (a b : Item) : Prop :=
  kindIdx a < kindIdx b ∨
    (kindIdx a = kindIdx b ∧ pyStrLe (pyLower (itemName a)) (pyLower (itemName b)) = true)

/-- Removal of every docstring from the reflection data, used to state
that the output without the doc option never reads a docstring. -/
def eraseMemberEntry (e : MemberEntry) : MemberEntry := ⟨e.name, e.isFuncOrDescr, e.inDict, ""⟩

def eraseClass (c : ClassData) : ClassData := ⟨c.pymodule, "", c.members.map eraseMemberEntry⟩

def erasePyMember : PyMember → PyMember
  | .cls c => .cls (eraseClass c)
  | .func f => .func ⟨f.pymodule, ""⟩
  | .modRef => .modRef
  | .routine => .routine
  | .value rpr => .value rpr

def eraseModule (m : ModuleData) : ModuleData :=
  ⟨m.name, m.hasPath, m.subs, m.members.map (fun p => (p.1, erasePyMember p.2))⟩

def eraseDocs (g : ModGraph) : ModGraph := fun i => eraseModule (g i)

def eraseItem : Item → Item
  | .submodule n i => .submodule n i
  | .classItem n c => .classItem n (eraseClass c)
  | .functionItem n f => .functionItem n ⟨f.pymodule, ""⟩
  | .constItem n p => .constItem n p

/-- Recognizer of the sentinel leaf line. -/
def sentinelChars : List Char := "(already visited)".data

def isSentinel (l : String) : Bool := sentinelChars.isSuffixOf l.data

/-! Concrete scenario graphs. -/

/-- A root module with one constant X whose repr is 42. -/
def gConst : ModGraph := fun _ => ⟨"m", false, [], [("X", .value "42")]⟩

/-- The two-module cycle a -> a.b -> a of the cycle scenario. -/
def gCycle : ModGraph := fun i =>
  if i == 0 then ⟨"a", true, [("b", some 1)], []⟩
  else ⟨"a.b", true, [("a", some 0)], []⟩

/-- A module with the two classes Foo and the private _Bar. -/
def gFooBar : ModGraph := fun _ =>
  ⟨"m", false, [], [("Foo", .cls ⟨"m", "", []⟩), ("_Bar", .cls ⟨"m", "", []⟩)]⟩

/-- A diamond: the root reaches d through both b and c. -/
def gDiamond : ModGraph := fun i =>
  if i == 0 then ⟨"r", true, [("b", some 1), ("c", some 2)], []⟩
  else if i == 1 then ⟨"r.b", true, [("d", some 3)], []⟩
  else if i == 2 then ⟨"r.c", true, [("d", some 3)], []⟩
  else ⟨"r.b.d", false, [], []⟩

/-- A package whose first child import raises and whose second child is a
leaf module with one function. -/
def gBadImport : ModGraph := fun i =>
  if i == 0 then ⟨"m", true, [("bad", none), ("ok", some 1)], []⟩
  else ⟨"m.ok", false, [], [("f", .func ⟨"m.ok", "doc line"⟩)]⟩

/-- The default options of main: depth 2, private names and docs off. -/
def cfgDefault : Config := ⟨2, false, false⟩

/-! Order facts about the code-point comparison. -/

theorem ltCharsB_asymm : ∀ {a b : List Char}, ltCharsB a b = true → ltCharsB b a = false
  | [], [], h => by simp [ltCharsB] at h
  | [], _ :: _, _ => by simp [ltCharsB]
  | _ :: _, [], h => by simp [ltCharsB] at h
  | a :: as, b :: bs, h => by
    simp only [ltCharsB] at h ⊢
    by_cases h1 : a.toNat < b.toNat
    · have h2 : ¬ b.toNat < a.toNat := by omega
      simp [h1, h2]
    · by_cases h2 : b.toNat < a.toNat
      · simp [h1, h2] at h
      · simp only [h1, h2, if_false] at h ⊢
        exact ltCharsB_asymm h

theorem ltCharsB_split :
    ∀ {c a : List Char}, ltCharsB c a = true →
      ∀ b : List Char, ltCharsB c b = true ∨ ltCharsB b a = true
  | [], [], h, _ => by simp [ltCharsB] at h
  | [], _ :: _, _, b => by
    cases b with
    | nil => right; simp [ltCharsB]
    | cons z zs => left; simp [ltCharsB]
  | _ :: _, [], h, _ => by simp [ltCharsB] at h
  | c :: cs, a :: as, h, b => by
    cases b with
    | nil => right; simp [ltCharsB]
    | cons z zs =>
      simp only [ltCharsB] at h ⊢
      by_cases hcz : c.toNat < z.toNat
      · left; simp [hcz]
      · by_cases hca : c.toNat < a.toNat
        · right
          have hza : z.toNat < a.toNat := by omega
          simp [hza]
        · by_cases hac : a.toNat < c.toNat
          · simp [hca, hac] at h
          · simp only [hca, hac, if_false] at h
            by_cases hzc : z.toNat < c.toNat
            · right
              have hza : z.toNat < a.toNat := by omega
              simp [hza]
            · have hza1 : ¬ z.toNat < a.toNat := by omega
              have haz1 : ¬ a.toNat < z.toNat := by omega
              rcases ltCharsB_split h zs with h2 | h2
              · left; simp [hcz, hzc, h2]
              · right; simp [hza1, haz1, h2]

theorem pyStrLe_total (a b : String) : pyStrLe a b = true ∨ pyStrLe b a = true := by
  by_cases h : ltCharsB b.data a.data = true
  · right
    have := ltCharsB_asymm h
    simp [pyStrLe, this]
  · left; simp [pyStrLe] at h ⊢; exact h

theorem pyStrLe_trans {a b c : String}
    (hab : pyStrLe a b = true) (hbc : pyStrLe b c = true) : pyStrLe a c = true := by
  simp only [pyStrLe, Bool.not_eq_true'] at hab hbc ⊢
  by_contra hca
  have hca2 : ltCharsB c.data a.data = true := by
    cases h : ltCharsB c.data a.data
    · exact absurd h hca
    · rfl
  rcases ltCharsB_split hca2 b.data with h | h
  · rw [h] at hbc; cases hbc
  · rw [h] at hab; cases hab

/-! Facts about the stable sort. -/

theorem mem_sortInsert {α : Type} (key : α → String) (a x : α) :
    ∀ l : List α, x ∈ sortInsert key a l ↔ x = a ∨ x ∈ l
  | [] => by simp [sortInsert]
  | b :: l => by
    simp only [sortInsert]
    by_cases h : pyStrLe (key a) (key b) = true
    · rw [if_pos h]
      simp only [List.mem_cons]
    · rw [if_neg h]
      simp only [List.mem_cons, mem_sortInsert key a x l]
      tauto

theorem pairwise_sortInsert {α : Type} (key : α → String) (a : α) :
    ∀ l : List α, l.Pairwise (fun x y => pyStrLe (key x) (key y) = true) →
      (sortInsert key a l).Pairwise (fun x y => pyStrLe (key x) (key y) = true)
  | [], _ => by simp [sortInsert]
  | b :: l, h => by
    rcases List.pairwise_cons.mp h with ⟨hb, hl⟩
    simp only [sortInsert]
    by_cases hab : pyStrLe (key a) (key b) = true
    · rw [if_pos hab]
      refine List.pairwise_cons.mpr ⟨?_, h⟩
      intro x hx
      rcases List.mem_cons.mp hx with rfl | hx
      · exact hab
      · exact pyStrLe_trans hab (hb x hx)
    · rw [if_neg hab]
      refine List.pairwise_cons.mpr ⟨?_, pairwise_sortInsert key a l hl⟩
      intro x hx
      rcases (mem_sortInsert key a x l).mp hx with rfl | hx
      · rcases pyStrLe_total (key x) (key b) with h2 | h2
        · exact absurd h2 hab
        · exact h2
      · exact hb x hx

theorem pairwise_sortByKey {α : Type} (key : α → String) :
    ∀ l : List α,
      (sortByKey key l).Pairwise (fun x y => pyStrLe (key x) (key y) = true)
  | [] => by simp [sortByKey]
  | a :: l => pairwise_sortInsert key a (sortByKey key l) (pairwise_sortByKey key l)

theorem mem_sortByKey {α : Type} (key : α → String) (x : α) :
    ∀ l : List α, x ∈ sortByKey key l ↔ x ∈ l
  | [] => by simp [sortByKey]
  | a :: l => by
    simp only [sortByKey, mem_sortInsert, mem_sortByKey key x l, List.mem_cons]

theorem sortInsert_map {α β : Type} (keyA : α → String) (keyB : β → String)
    (f : α → β) (hf : ∀ x, keyB (f x) = keyA x) (a : α) :
    ∀ l : List α, sortInsert keyB (f a) (l.map f) = (sortInsert keyA a l).map f
  | [] => by simp [sortInsert]
  | b :: l => by
    simp only [List.map_cons, sortInsert, hf]
    by_cases h : pyStrLe (keyA a) (keyA b) = true
    · rw [if_pos h, if_pos h]
      simp
    · rw [if_neg h, if_neg h]
      simp [sortInsert_map keyA keyB f hf a l]

theorem sortByKey_map {α β : Type} (keyA : α → String) (keyB : β → String)
    (f : α → β) (hf : ∀ x, keyB (f x) = keyA x) :
    ∀ l : List α, sortByKey keyB (l.map f) = (sortByKey keyA l).map f
  | [] => by simp [sortByKey]
  | a :: l => by
    simp only [List.map_cons, sortByKey, sortByKey_map keyA keyB f hf l]
    exact sortInsert_map keyA keyB f hf a (sortByKey keyA l)

/-! Walker lemmas. -/

theorem walkChild_congr {wm1 wm2 : Nat → String → Nat → List Nat → List String × List Nat}
    (cfg : Config) (pfx : String) (depth : Nat) (item : Item) (isLast : Bool)
    (v : List Nat)
    (hwm : depth < cfg.maxDepth →
      ∀ cid p w, wm1 cid p (depth + 1) w = wm2 cid p (depth + 1) w) :
    walkChild wm1 cfg pfx depth item isLast v = walkChild wm2 cfg pfx depth item isLast v := by
  simp only [walkChild]
  by_cases hd : depth < cfg.maxDepth
  · rw [if_pos hd, if_pos hd]
    cases item with
    | submodule n cid => exact hwm hd cid _ v
    | classItem n c => rfl
    | functionItem n f => rfl
    | constItem n p => rfl
  · rw [if_neg hd, if_neg hd]

theorem walkChild_visited_sub
    {wm : Nat → String → Nat → List Nat → List String × List Nat}
    (Hwm : ∀ cid p d w x, x ∈ w → x ∈ (wm cid p d w).2)
    (cfg : Config) (pfx : String) (depth : Nat) (item : Item) (isLast : Bool)
    (v : List Nat) (x : Nat) (hx : x ∈ v) :
    x ∈ (walkChild wm cfg pfx depth item isLast v).2 := by
  simp only [walkChild]
  by_cases hd : depth < cfg.maxDepth
  · rw [if_pos hd]
    cases item with
    | submodule n cid => exact Hwm cid _ _ _ x hx
    | classItem n c => exact hx
    | functionItem n f => exact hx
    | constItem n p => exact hx
  · rw [if_neg hd]
    exact hx

theorem walkChild_visited_nodup
    {wm : Nat → String → Nat → List Nat → List String × List Nat}
    (Hwm : ∀ cid p d w, w.Nodup → (wm cid p d w).2.Nodup)
    (cfg : Config) (pfx : String) (depth : Nat) (item : Item) (isLast : Bool)
    (v : List Nat) (hv : v.Nodup) :
    (walkChild wm cfg pfx depth item isLast v).2.Nodup := by
  simp only [walkChild]
  by_cases hd : depth < cfg.maxDepth
  · rw [if_pos hd]
    cases item with
    | submodule n cid => exact Hwm cid _ _ _ hv
    | classItem n c => exact hv
    | functionItem n f => exact hv
    | constItem n p => exact hv
  · rw [if_neg hd]
    exact hv

theorem memberLines_pfx2 (cfg : Config) (pfx : String) (isLast : Bool) (c : ClassData)
    (line : String) (h : line ∈ memberLines cfg pfx isLast c) :
    ∃ t, line = (pfx ++ (if isLast then TREE_SPACE else TREE_PIPE)) ++ t := by
  simp only [memberLines, List.mem_map] at h
  rcases h with ⟨p, _, rfl⟩
  refine ⟨(if p.1 == (ownMembers cfg c).length - 1 then TREE_LAST else TREE_BRANCH)
    ++ (p.2.name ++ doc1 cfg.showDoc p.2.doc), ?_⟩
  simp [String.append_assoc]

theorem walkChild_lines_pfx
    {wm : Nat → String → Nat → List Nat → List String × List Nat}
    (Hwm : ∀ cid p d w line, line ∈ (wm cid p d w).1 → ∃ t, line = p ++ t)
    (cfg : Config) (pfx : String) (depth : Nat) (item : Item) (isLast : Bool)
    (v : List Nat) (line : String)
    (h : line ∈ (walkChild wm cfg pfx depth item isLast v).1) :
    ∃ t, line = (pfx ++ (if isLast then TREE_SPACE else TREE_PIPE)) ++ t := by
  simp only [walkChild] at h
  by_cases hd : depth < cfg.maxDepth
  · rw [if_pos hd] at h
    cases item with
    | submodule n cid => exact Hwm cid _ _ _ line h
    | classItem n c => exact memberLines_pfx2 cfg pfx isLast c line h
    | functionItem n f => simp at h
    | constItem n p => simp at h
  · rw [if_neg hd] at h
    simp at h

theorem walkItems_congr {wm1 wm2 : Nat → String → Nat → List Nat → List String × List Nat}
    (cfg : Config) (pfx : String) (depth : Nat) (total : Nat)
    (hwm : depth < cfg.maxDepth →
      ∀ cid p v, wm1 cid p (depth + 1) v = wm2 cid p (depth + 1) v) :
    ∀ (items : List Item) (i : Nat) (v : List Nat),
      walkItems wm1 cfg pfx depth total items i v = walkItems wm2 cfg pfx depth total items i v
  | [], _, _ => rfl
  | item :: rest, i, v => by
    simp only [walkItems]
    rw [walkChild_congr cfg pfx depth item (i == total - 1) v hwm]
    rw [walkItems_congr cfg pfx depth total hwm rest (i + 1) _]

/-- Fuel stability: any two fuel values that cover the remaining depth
budget compute the same result, so the fuel argument is a harmless
bookkeeping device and the walk of the source terminates within the depth
bound. -/
theorem walk_fuel_stable (g : ModGraph) (cfg : Config) :
    ∀ f1 f2 mid pfx depth v, depth ≤ cfg.maxDepth →
      cfg.maxDepth + 1 ≤ f1 + depth → cfg.maxDepth + 1 ≤ f2 + depth →
      walk_module g cfg f1 mid pfx depth v = walk_module g cfg f2 mid pfx depth v
  | 0, _, _, _, depth, _, hle, h1, _ => by omega
  | _ + 1, 0, _, _, depth, _, hle, _, h2 => by omega
  | a + 1, b + 1, mid, pfx, depth, v, hle, h1, h2 => by
    simp only [walk_module]
    by_cases hm : mid ∈ v
    · rw [if_pos hm, if_pos hm]
    · rw [if_neg hm, if_neg hm]
      by_cases hd : depth > cfg.maxDepth
      · rw [if_pos hd, if_pos hd]
      · rw [if_neg hd, if_neg hd]
        exact walkItems_congr cfg pfx depth _
          (fun hdm cid p w =>
            walk_fuel_stable g cfg a b cid p (depth + 1) w (by omega) (by omega) (by omega))
          _ 0 (mid :: v)

/-- Re-entering an already visited module prints the sentinel leaf and
nothing else, leaving the visited set unchanged: the node is never
expanded a second time. -/
theorem walk_revisit (g : ModGraph) (cfg : Config) (fuel mid : Nat) (pfx : String)
    (depth : Nat) (v : List Nat) (h : mid ∈ v) :
    walk_module g cfg (fuel + 1) mid pfx depth v =
      ([pfx ++ TREE_LAST ++ "(already visited)"], v) := by
  simp only [walk_module]
  rw [if_pos h]

theorem walkItems_visited_sub
    {wm : Nat → String → Nat → List Nat → List String × List Nat}
    (Hwm : ∀ cid p d w x, x ∈ w → x ∈ (wm cid p d w).2)
    (cfg : Config) (pfx : String) (depth : Nat) (total : Nat) :
    ∀ (items : List Item) (i : Nat) (v : List Nat) (x : Nat),
      x ∈ v → x ∈ (walkItems wm cfg pfx depth total items i v).2
  | [], _, _, _, hx => hx
  | item :: rest, i, v, x, hx => by
    simp only [walkItems]
    exact walkItems_visited_sub Hwm cfg pfx depth total rest (i + 1) _ x
      (walkChild_visited_sub Hwm cfg pfx depth item (i == total - 1) v x hx)

theorem walk_visited_sub (g : ModGraph) (cfg : Config) :
    ∀ (fuel mid : Nat) (pfx : String) (depth : Nat) (v : List Nat) (x : Nat),
      x ∈ v → x ∈ (walk_module g cfg fuel mid pfx depth v).2
  | 0, _, _, _, _, _, hx => hx
  | fuel + 1, mid, pfx, depth, v, x, hx => by
    simp only [walk_module]
    by_cases hm : mid ∈ v
    · rw [if_pos hm]; exact hx
    · rw [if_neg hm]
      by_cases hd : depth > cfg.maxDepth
      · rw [if_pos hd]
        exact List.mem_cons_of_mem mid hx
      · rw [if_neg hd]
        exact walkItems_visited_sub
          (fun cid p d w y hy => walk_visited_sub g cfg fuel cid p d w y hy)
          cfg pfx depth _ _ 0 (mid :: v) x (List.mem_cons_of_mem mid hx)

theorem walkItems_visited_nodup
    {wm : Nat → String → Nat → List Nat → List String × List Nat}
    (Hwm : ∀ cid p d w, w.Nodup → (wm cid p d w).2.Nodup)
    (cfg : Config) (pfx : String) (depth : Nat) (total : Nat) :
    ∀ (items : List Item) (i : Nat) (v : List Nat),
      v.Nodup → (walkItems wm cfg pfx depth total items i v).2.Nodup
  | [], _, _, hv => hv
  | item :: rest, i, v, hv => by
    simp only [walkItems]
    exact walkItems_visited_nodup Hwm cfg pfx depth total rest (i + 1) _
      (walkChild_visited_nodup Hwm cfg pfx depth item (i == total - 1) v hv)

theorem walk_visited_nodup (g : ModGraph) (cfg : Config) :
    ∀ (fuel mid : Nat) (pfx : String) (depth : Nat) (v : List Nat),
      v.Nodup → (walk_module g cfg fuel mid pfx depth v).2.Nodup
  | 0, _, _, _, _, hv => hv
  | fuel + 1, mid, pfx, depth, v, hv => by
    simp only [walk_module]
    by_cases hm : mid ∈ v
    · rw [if_pos hm]; exact hv
    · rw [if_neg hm]
      have hv2 : (mid :: v).Nodup := List.nodup_cons.mpr ⟨hm, hv⟩
      by_cases hd : depth > cfg.maxDepth
      · rw [if_pos hd]; exact hv2
      · rw [if_neg hd]
        exact walkItems_visited_nodup
          (fun cid p d w hw => walk_visited_nodup g cfg fuel cid p d w hw)
          cfg pfx depth _ _ 0 (mid :: v) hv2

/-! Small string facts. -/

theorem str_empty_append (s : String) : "" ++ s = s := by cases s; rfl

theorem str_append_length (a b : String) : (a ++ b).length = a.length + b.length := by
  cases a; cases b; simp [String.length, String.append]

theorem map_empty_append : ∀ l : List String, l.map (fun s => "" ++ s) = l
  | [] => rfl
  | a :: l => by rw [List.map_cons, str_empty_append, map_empty_append l]

theorem segJoin_snoc (l : List Bool) (b : Bool) :
    segJoin (l ++ [b]) = segJoin l ++ segStr b := by
  induction l with
  | nil => simp [segJoin, str_empty_append, String.append_empty]
  | cons a l ih => simp [segJoin, ih, String.append_assoc]

/-! The item loop away from the descent zone: one line per item. -/

theorem walkItems_frozen {wm : Nat → String → Nat → List Nat → List String × List Nat}
    (cfg : Config) (pfx : String) (depth : Nat) (total : Nat)
    (hd : ¬ depth < cfg.maxDepth) :
    ∀ (items : List Item) (i : Nat) (v : List Nat),
      walkItems wm cfg pfx depth total items i v =
        ((itemLinesFrom cfg total items i).map (fun s => pfx ++ s), v)
  | [], _, _ => rfl
  | item :: rest, i, v => by
    simp only [walkItems, itemLinesFrom, walkChild]
    rw [if_neg hd]
    rw [walkItems_frozen cfg pfx depth total hd rest (i + 1) v]
    simp [String.append_assoc]

/-! Every line produced by a walk extends the prefix of the walk. -/

theorem memberLines_pfx (cfg : Config) (pfx : String) (isLast : Bool) (c : ClassData)
    (line : String) (h : line ∈ memberLines cfg pfx isLast c) : ∃ t, line = pfx ++ t := by
  simp only [memberLines, List.mem_map] at h
  rcases h with ⟨p, _, rfl⟩
  refine ⟨(if isLast then TREE_SPACE else TREE_PIPE)
    ++ ((if p.1 == (ownMembers cfg c).length - 1 then TREE_LAST else TREE_BRANCH)
      ++ (p.2.name ++ doc1 cfg.showDoc p.2.doc)), ?_⟩
  simp [String.append_assoc]

theorem walkItems_lines_pfx
    {wm : Nat → String → Nat → List Nat → List String × List Nat}
    (Hwm : ∀ cid p d w line, line ∈ (wm cid p d w).1 → ∃ t, line = p ++ t)
    (cfg : Config) (pfx : String) (depth : Nat) (total : Nat) :
    ∀ (items : List Item) (i : Nat) (v : List Nat) (line : String),
      line ∈ (walkItems wm cfg pfx depth total items i v).1 → ∃ t, line = pfx ++ t
  | [], _, _, _, h => by simp [walkItems] at h
  | item :: rest, i, v, line, h => by
    simp only [walkItems, List.mem_cons, List.mem_append] at h
    rcases h with rfl | hchild | hrest
    · refine ⟨(if i == total - 1 then TREE_LAST else TREE_BRANCH) ++ itemText cfg item, ?_⟩
      simp [String.append_assoc]
    · rcases walkChild_lines_pfx Hwm cfg pfx depth item (i == total - 1) v line hchild
        with ⟨t, rfl⟩
      refine ⟨(if i == total - 1 then TREE_SPACE else TREE_PIPE) ++ t, ?_⟩
      simp [String.append_assoc]
    · exact walkItems_lines_pfx Hwm cfg pfx depth total rest (i + 1) _ line hrest

theorem walk_lines_pfx (g : ModGraph) (cfg : Config) :
    ∀ (fuel mid : Nat) (pfx : String) (depth : Nat) (v : List Nat) (line : String),
      line ∈ (walk_module g cfg fuel mid pfx depth v).1 → ∃ t, line = pfx ++ t
  | 0, _, _, _, _, _, h => by simp [walk_module] at h
  | fuel + 1, mid, pfx, depth, v, line, h => by
    simp only [walk_module] at h
    by_cases hm : mid ∈ v
    · rw [if_pos hm] at h
      simp only [List.mem_singleton] at h
      refine ⟨TREE_LAST ++ "(already visited)", ?_⟩
      simp [h, String.append_assoc]
    · rw [if_neg hm] at h
      by_cases hd : depth > cfg.maxDepth
      · rw [if_pos hd] at h; simp at h
      · rw [if_neg hd] at h
        exact walkItems_lines_pfx
          (fun cid p d w l hl => walk_lines_pfx g cfg fuel cid p d w l hl)
          cfg pfx depth _ _ 0 (mid :: v) line h

/-! The ancestry depth of every printed line stays within the bound. -/

theorem memberLines_depth_le (cfg : Config) (l : List Bool) (isLast : Bool)
    (c : ClassData) (n : Nat) (hlen : l.length + 1 ≤ n) (line : String)
    (h : line ∈ memberLines cfg (segJoin l) isLast c) : LineDepthLE line n := by
  simp only [memberLines, List.mem_map] at h
  rcases h with ⟨p, _, rfl⟩
  refine ⟨l ++ [isLast], p.1 == (ownMembers cfg c).length - 1, p.2.name ++ doc1 cfg.showDoc p.2.doc, ?_, ?_⟩
  · simp; omega
  · rw [segJoin_snoc]
    simp [segStr, connStr, String.append_assoc]

theorem walkChild_depth_le
    {wm : Nat → String → Nat → List Nat → List String × List Nat}
    (cfg : Config) (l : List Bool) (depth : Nat) (item : Item) (isLast : Bool)
    (v : List Nat) (hdep : l.length = depth) (_hmax : depth ≤ cfg.maxDepth)
    (Hwm : ∀ cid b w line, depth + 1 ≤ cfg.maxDepth →
      line ∈ (wm cid (segJoin l ++ segStr b) (depth + 1) w).1 →
      LineDepthLE line cfg.maxDepth)
    (line : String) (h : line ∈ (walkChild wm cfg (segJoin l) depth item isLast v).1) :
    LineDepthLE line cfg.maxDepth := by
  simp only [walkChild] at h
  by_cases hd : depth < cfg.maxDepth
  · rw [if_pos hd] at h
    cases item with
    | submodule n cid =>
      have h2 := Hwm cid isLast v line (by omega)
      rw [segStr] at h2
      exact h2 h
    | classItem n c =>
      exact memberLines_depth_le cfg l isLast c cfg.maxDepth (by omega) line h
    | functionItem n f => simp at h
    | constItem n p => simp at h
  · rw [if_neg hd] at h
    simp at h

theorem walkItems_depth_le
    {wm : Nat → String → Nat → List Nat → List String × List Nat}
    (cfg : Config) (l : List Bool) (depth : Nat) (total : Nat)
    (hdep : l.length = depth) (hmax : depth ≤ cfg.maxDepth)
    (Hwm : ∀ cid b w line, depth + 1 ≤ cfg.maxDepth →
      line ∈ (wm cid (segJoin l ++ segStr b) (depth + 1) w).1 →
      LineDepthLE line cfg.maxDepth) :
    ∀ (items : List Item) (i : Nat) (v : List Nat) (line : String),
      line ∈ (walkItems wm cfg (segJoin l) depth total items i v).1 →
      LineDepthLE line cfg.maxDepth
  | [], _, _, _, h => by simp [walkItems] at h
  | item :: rest, i, v, line, h => by
    simp only [walkItems, List.mem_cons, List.mem_append] at h
    rcases h with rfl | hchild | hrest
    · exact ⟨l, i == total - 1, itemText cfg item, by omega,
        by simp [connStr, String.append_assoc]⟩
    · exact walkChild_depth_le cfg l depth item (i == total - 1) v hdep hmax Hwm line hchild
    · exact walkItems_depth_le cfg l depth total hdep hmax Hwm rest (i + 1) _ line hrest

theorem walk_depth_le (g : ModGraph) (cfg : Config) :
    ∀ (fuel mid : Nat) (l : List Bool) (depth : Nat) (v : List Nat) (line : String),
      l.length = depth → depth ≤ cfg.maxDepth →
      line ∈ (walk_module g cfg fuel mid (segJoin l) depth v).1 →
      LineDepthLE line cfg.maxDepth
  | 0, _, _, _, _, _, _, _, h => by simp [walk_module] at h
  | fuel + 1, mid, l, depth, v, line, hdep, hmax, h => by
    simp only [walk_module] at h
    by_cases hm : mid ∈ v
    · rw [if_pos hm] at h
      simp only [List.mem_singleton] at h
      exact ⟨l, true, "(already visited)", by omega,
        by simp [h, connStr, String.append_assoc]⟩
    · rw [if_neg hm] at h
      by_cases hd : depth > cfg.maxDepth
      · rw [if_pos hd] at h; simp at h
      · rw [if_neg hd] at h
        refine walkItems_depth_le cfg l depth _ hdep hmax ?_ _ 0 (mid :: v) line h
        intro cid b w line2 hd2 hmem
        rw [← segJoin_snoc] at hmem
        exact walk_depth_le g cfg fuel cid (l ++ [b]) (depth + 1) w line2
          (by simp [hdep]) (by omega) hmem

/-! Removing docstrings commutes with the walk when docs are off. -/

theorem doc1_false (d : String) : doc1 false d = "" := rfl

theorem classify_erase (modName : String) :
    ∀ ms : List (String × PyMember),
      classifyMembers modName (ms.map (fun p => (p.1, erasePyMember p.2))) =
        ((classifyMembers modName ms).1.map (fun p => (p.1, eraseClass p.2)),
         (classifyMembers modName ms).2.1.map
           (fun p => (p.1, (⟨p.2.pymodule, ""⟩ : FuncData))),
         (classifyMembers modName ms).2.2)
  | [] => rfl
  | (n, o) :: ms => by
    have ih := classify_erase modName ms
    cases o with
    | cls c =>
      show classifyMembers modName ((n, PyMember.cls (eraseClass c)) ::
          ms.map (fun p => (p.1, erasePyMember p.2))) = _
      simp only [classifyMembers]
      simp only [show (eraseClass c).pymodule = c.pymodule from rfl]
      by_cases h : (c.pymodule == modName) = true
      · rw [if_pos h, if_pos h, ih]
        rfl
      · rw [if_neg h, if_neg h, ih]
    | func f =>
      show classifyMembers modName ((n, PyMember.func ⟨f.pymodule, ""⟩) ::
          ms.map (fun p => (p.1, erasePyMember p.2))) = _
      simp only [classifyMembers]
      by_cases h : (f.pymodule == modName) = true
      · rw [if_pos h, if_pos h, ih]
        rfl
      · rw [if_neg h, if_neg h, ih]
    | modRef =>
      show classifyMembers modName ((n, PyMember.modRef) ::
          ms.map (fun p => (p.1, erasePyMember p.2))) = _
      simp only [classifyMembers]
      rw [ih]
    | routine =>
      show classifyMembers modName ((n, PyMember.routine) ::
          ms.map (fun p => (p.1, erasePyMember p.2))) = _
      simp only [classifyMembers]
      rw [ih]
    | value rpr =>
      show classifyMembers modName ((n, PyMember.value rpr) ::
          ms.map (fun p => (p.1, erasePyMember p.2))) = _
      simp only [classifyMembers]
      rw [ih]

theorem yield_erase (m : ModuleData) :
    yield_members_sorted (eraseModule m) =
      ((yield_members_sorted m).1.map (fun p => (p.1, eraseClass p.2)),
       (yield_members_sorted m).2.1.map (fun p => (p.1, (⟨p.2.pymodule, ""⟩ : FuncData))),
       (yield_members_sorted m).2.2) := by
  show yield_members_sorted ⟨m.name, m.hasPath, m.subs, m.members.map _⟩ = _
  simp only [yield_members_sorted]
  rw [classify_erase]
  dsimp only
  rw [sortByKey_map byLowerName byLowerName (fun p => (p.1, eraseClass p.2)) (fun p => rfl)
    ((classifyMembers m.name m.members).1)]
  rw [sortByKey_map byLowerName byLowerName
    (fun p => (p.1, (⟨p.2.pymodule, ""⟩ : FuncData))) (fun p => rfl)
    ((classifyMembers m.name m.members).2.1)]

theorem bucket_cls_erase (cfg : Config) :
    ∀ cs : List (String × ClassData),
      (((cs.map (fun p => (p.1, eraseClass p.2))).filter
          (fun p => keepName cfg p.1)).map (fun p => Item.classItem p.1 p.2))
        = (((cs.filter (fun p => keepName cfg p.1)).map
            (fun p => Item.classItem p.1 p.2)).map eraseItem)
  | [] => rfl
  | (n, c) :: cs => by
    cases h : keepName cfg n with
    | true =>
      simp only [List.map_cons, List.filter_cons, h, if_true, List.map_cons, eraseItem]
      rw [bucket_cls_erase cfg cs]
    | false =>
      simp only [List.map_cons, List.filter_cons, h, if_false]
      exact bucket_cls_erase cfg cs

theorem bucket_fun_erase (cfg : Config) :
    ∀ fs : List (String × FuncData),
      (((fs.map (fun p => (p.1, (⟨p.2.pymodule, ""⟩ : FuncData)))).filter
          (fun p => keepName cfg p.1)).map (fun p => Item.functionItem p.1 p.2))
        = (((fs.filter (fun p => keepName cfg p.1)).map
            (fun p => Item.functionItem p.1 p.2)).map eraseItem)
  | [] => rfl
  | (n, f) :: fs => by
    cases h : keepName cfg n with
    | true =>
      simp only [List.map_cons, List.filter_cons, h, if_true, List.map_cons, eraseItem]
      rw [bucket_fun_erase cfg fs]
    | false =>
      simp only [List.map_cons, List.filter_cons, h, if_false]
      exact bucket_fun_erase cfg fs

theorem map_eraseItem_sub :
    ∀ l : List (String × Nat),
      ((l.map (fun p => Item.submodule p.1 p.2)).map eraseItem)
        = l.map (fun p => Item.submodule p.1 p.2)
  | [] => rfl
  | p :: l => by simp only [List.map_cons, eraseItem, map_eraseItem_sub l]

theorem map_eraseItem_const :
    ∀ l : List (String × String),
      ((l.map (fun p => Item.constItem p.1 (truncPreview p.2))).map eraseItem)
        = l.map (fun p => Item.constItem p.1 (truncPreview p.2))
  | [] => rfl
  | p :: l => by simp only [List.map_cons, eraseItem, map_eraseItem_const l]

theorem buildItems_erase (cfg : Config) (m : ModuleData) (depth : Nat) :
    buildItems cfg (eraseModule m) depth = (buildItems cfg m depth).map eraseItem := by
  have hiter : iter_submodules (eraseModule m) = iter_submodules m := rfl
  have hsub :
      (if depth < cfg.maxDepth then
          ((sortByKey byLowerName (iter_submodules (eraseModule m))).filter
            (fun p => keepName cfg p.1)).map (fun p => Item.submodule p.1 p.2)
        else []) =
      ((if depth < cfg.maxDepth then
          ((sortByKey byLowerName (iter_submodules m)).filter
            (fun p => keepName cfg p.1)).map (fun p => Item.submodule p.1 p.2)
        else []) : List Item).map eraseItem := by
    rw [hiter]
    by_cases hd : depth < cfg.maxDepth
    · rw [if_pos hd, map_eraseItem_sub]
    · rw [if_neg hd]
      rfl
  have hcls :
      (((yield_members_sorted (eraseModule m)).1.filter (fun p => keepName cfg p.1)).map
          (fun p => Item.classItem p.1 p.2)) =
        ((((yield_members_sorted m).1.filter (fun p => keepName cfg p.1)).map
          (fun p => Item.classItem p.1 p.2)).map eraseItem) := by
    rw [yield_erase]
    exact bucket_cls_erase cfg _
  have hfun :
      (((yield_members_sorted (eraseModule m)).2.1.filter (fun p => keepName cfg p.1)).map
          (fun p => Item.functionItem p.1 p.2)) =
        ((((yield_members_sorted m).2.1.filter (fun p => keepName cfg p.1)).map
          (fun p => Item.functionItem p.1 p.2)).map eraseItem) := by
    rw [yield_erase]
    exact bucket_fun_erase cfg _
  have hconst :
      (((yield_members_sorted (eraseModule m)).2.2.filter (fun p => keepName cfg p.1)).map
          (fun p => Item.constItem p.1 (truncPreview p.2))) =
        ((((yield_members_sorted m).2.2.filter (fun p => keepName cfg p.1)).map
          (fun p => Item.constItem p.1 (truncPreview p.2))).map eraseItem) := by
    rw [yield_erase]
    exact (map_eraseItem_const _).symm
  simp only [buildItems]
  rw [List.map_append, List.map_append, List.map_append]
  rw [hsub, hcls, hfun, hconst]

theorem members_filter_erase (cfg : Config) :
    ∀ l : List MemberEntry,
      (l.map eraseMemberEntry).filter
          (fun e => keepName cfg e.name && e.isFuncOrDescr && e.inDict)
        = (l.filter (fun e => keepName cfg e.name && e.isFuncOrDescr && e.inDict)).map
            eraseMemberEntry
  | [] => rfl
  | e :: l => by
    cases h : keepName cfg e.name && e.isFuncOrDescr && e.inDict with
    | true =>
      have h2 : (keepName cfg (eraseMemberEntry e).name && (eraseMemberEntry e).isFuncOrDescr
          && (eraseMemberEntry e).inDict) = true := h
      simp only [List.map_cons, List.filter_cons, h, h2, if_true]
      rw [members_filter_erase cfg l]
    | false =>
      have h2 : (keepName cfg (eraseMemberEntry e).name && (eraseMemberEntry e).isFuncOrDescr
          && (eraseMemberEntry e).inDict) = false := h
      simp only [List.map_cons, List.filter_cons, h, h2, if_false]
      exact members_filter_erase cfg l

theorem ownMembers_erase (cfg : Config) (c : ClassData) :
    ownMembers cfg (eraseClass c) = (ownMembers cfg c).map eraseMemberEntry := by
  show sortByKey _ ((c.members.map eraseMemberEntry).filter _) = _
  rw [members_filter_erase]
  exact sortByKey_map (fun e => pyLower e.name) (fun e => pyLower e.name)
    eraseMemberEntry (fun e => rfl) _

theorem memberLines_erase (cfg : Config) (pfx : String) (isLast : Bool) (c : ClassData)
    (hsd : cfg.showDoc = false) :
    memberLines cfg pfx isLast (eraseClass c) = memberLines cfg pfx isLast c := by
  simp only [memberLines, ownMembers_erase, List.enum_map, List.map_map, List.length_map]
  refine List.map_congr_left ?_
  intro p _
  simp [eraseMemberEntry, hsd, doc1_false]

theorem itemText_erase (cfg : Config) (hsd : cfg.showDoc = false) (it : Item) :
    itemText cfg (eraseItem it) = itemText cfg it := by
  cases it <;> simp [itemText, eraseItem, hsd, doc1_false]

theorem walkChild_erase
    {wm : Nat → String → Nat → List Nat → List String × List Nat}
    (cfg : Config) (pfx : String) (depth : Nat) (item : Item) (isLast : Bool)
    (v : List Nat) (hsd : cfg.showDoc = false) :
    walkChild wm cfg pfx depth (eraseItem item) isLast v =
      walkChild wm cfg pfx depth item isLast v := by
  simp only [walkChild]
  by_cases hd : depth < cfg.maxDepth
  · rw [if_pos hd, if_pos hd]
    cases item with
    | submodule n cid => rfl
    | classItem n c =>
      dsimp only [eraseItem]
      rw [memberLines_erase cfg pfx isLast c hsd]
    | functionItem n f => rfl
    | constItem n p => rfl
  · rw [if_neg hd, if_neg hd]

theorem walkItems_erase
    {wm : Nat → String → Nat → List Nat → List String × List Nat}
    (cfg : Config) (pfx : String) (depth : Nat) (total : Nat) (hsd : cfg.showDoc = false) :
    ∀ (items : List Item) (i : Nat) (v : List Nat),
      walkItems wm cfg pfx depth total (items.map eraseItem) i v =
        walkItems wm cfg pfx depth total items i v
  | [], _, _ => rfl
  | item :: rest, i, v => by
    simp only [List.map_cons, walkItems, itemText_erase cfg hsd item]
    rw [walkChild_erase cfg pfx depth item (i == total - 1) v hsd]
    rw [walkItems_erase cfg pfx depth total hsd rest (i + 1) _]

theorem walk_erase (g : ModGraph) (cfg : Config) (hsd : cfg.showDoc = false) :
    ∀ (fuel mid : Nat) (pfx : String) (depth : Nat) (v : List Nat),
      walk_module (eraseDocs g) cfg fuel mid pfx depth v =
        walk_module g cfg fuel mid pfx depth v
  | 0, _, _, _, _ => rfl
  | fuel + 1, mid, pfx, depth, v => by
    simp only [walk_module]
    by_cases hm : mid ∈ v
    · rw [if_pos hm, if_pos hm]
    · rw [if_neg hm, if_neg hm]
      by_cases hd : depth > cfg.maxDepth
      · rw [if_pos hd, if_pos hd]
      · rw [if_neg hd, if_neg hd]
        have hb : buildItems cfg (eraseDocs g mid) depth =
            (buildItems cfg (g mid) depth).map eraseItem :=
          buildItems_erase cfg (g mid) depth
        rw [hb, List.length_map]
        rw [walkItems_erase cfg pfx depth _ hsd _ 0 (mid :: v)]
        exact walkItems_congr cfg pfx depth _
          (fun hdm cid p w => walk_erase g cfg hsd fuel cid p (depth + 1) w)
          _ 0 (mid :: v)

/-! A class or function owned by another module contributes nothing. -/

theorem classify_skip_cls (modName n : String) (c : ClassData)
    (h : (c.pymodule == modName) = false) :
    ∀ pre post : List (String × PyMember),
      classifyMembers modName (pre ++ (n, .cls c) :: post) =
        classifyMembers modName (pre ++ post)
  | [], post => by
    show classifyMembers modName ((n, PyMember.cls c) :: post) = _
    simp only [classifyMembers]
    rw [if_neg (by simp [h])]
    rfl
  | (n2, o) :: pre, post => by
    have ih := classify_skip_cls modName n c h pre post
    show classifyMembers modName ((n2, o) :: (pre ++ (n, PyMember.cls c) :: post)) =
      classifyMembers modName ((n2, o) :: (pre ++ post))
    simp only [classifyMembers]
    rw [ih]

theorem classify_skip_fun (modName n : String) (f : FuncData)
    (h : (f.pymodule == modName) = false) :
    ∀ pre post : List (String × PyMember),
      classifyMembers modName (pre ++ (n, .func f) :: post) =
        classifyMembers modName (pre ++ post)
  | [], post => by
    show classifyMembers modName ((n, PyMember.func f) :: post) = _
    simp only [classifyMembers]
    rw [if_neg (by simp [h])]
    rfl
  | (n2, o) :: pre, post => by
    have ih := classify_skip_fun modName n f h pre post
    show classifyMembers modName ((n2, o) :: (pre ++ (n, PyMember.func f) :: post)) =
      classifyMembers modName ((n2, o) :: (pre ++ post))
    simp only [classifyMembers]
    rw [ih]

theorem buildItems_skip_cls (cfg : Config) (nm : String) (hp : Bool)
    (subs : List (String × Option Nat)) (pre post : List (String × PyMember))
    (n : String) (c : ClassData) (depth : Nat) (h : (c.pymodule == nm) = false) :
    buildItems cfg ⟨nm, hp, subs, pre ++ (n, .cls c) :: post⟩ depth =
      buildItems cfg ⟨nm, hp, subs, pre ++ post⟩ depth := by
  simp only [buildItems, yield_members_sorted, iter_submodules]
  rw [classify_skip_cls nm n c h pre post]

theorem buildItems_skip_fun (cfg : Config) (nm : String) (hp : Bool)
    (subs : List (String × Option Nat)) (pre post : List (String × PyMember))
    (n : String) (f : FuncData) (depth : Nat) (h : (f.pymodule == nm) = false) :
    buildItems cfg ⟨nm, hp, subs, pre ++ (n, .func f) :: post⟩ depth =
      buildItems cfg ⟨nm, hp, subs, pre ++ post⟩ depth := by
  simp only [buildItems, yield_members_sorted, iter_submodules]
  rw [classify_skip_fun nm n f h pre post]

/-! A child whose import raises is reported as absent. -/

theorem iter_skip_none (nm : String) (hp : Bool) (n : String)
    (pre post : List (String × Option Nat)) (ms : List (String × PyMember)) :
    iter_submodules ⟨nm, hp, pre ++ (n, none) :: post, ms⟩ =
      iter_submodules ⟨nm, hp, pre ++ post, ms⟩ := by
  simp only [iter_submodules]
  cases hp <;> simp [List.filterMap_append]

theorem buildItems_skip_none (cfg : Config) (depth : Nat) (nm : String) (hp : Bool)
    (n : String) (pre post : List (String × Option Nat)) (ms : List (String × PyMember)) :
    buildItems cfg ⟨nm, hp, pre ++ (n, none) :: post, ms⟩ depth =
      buildItems cfg ⟨nm, hp, pre ++ post, ms⟩ depth := by
  simp only [buildItems, yield_members_sorted]
  rw [iter_skip_none nm hp n pre post ms]

/-! Per-sibling block structure of the item loop. -/

theorem walkItems_blocks
    {wm : Nat → String → Nat → List Nat → List String × List Nat}
    (Hwm : ∀ cid p d w line, line ∈ (wm cid p d w).1 → ∃ t, line = p ++ t)
    (cfg : Config) (pfx : String) (depth : Nat) (total : Nat) :
    ∀ (items : List Item) (i : Nat) (v : List Nat),
      ∃ blocks : List (String × List String),
        (walkItems wm cfg pfx depth total items i v).1
          = (blocks.map (fun b => b.1 :: b.2)).flatten ∧
        blocks.length = items.length ∧
        BlocksSpec cfg pfx total items i blocks
  | [], i, v => ⟨[], by simp [walkItems], rfl, rfl⟩
  | item :: rest, i, v => by
    rcases walkItems_blocks Hwm cfg pfx depth total rest (i + 1)
        ((walkChild wm cfg pfx depth item (i == total - 1) v).2) with ⟨bs, hout, hlen, hspec⟩
    refine ⟨(pfx ++ (if i == total - 1 then TREE_LAST else TREE_BRANCH) ++ itemText cfg item,
        (walkChild wm cfg pfx depth item (i == total - 1) v).1) :: bs, ?_, ?_, ?_⟩
    · simp only [walkItems, List.map_cons, List.flatten_cons]
      rw [← hout]
      simp
    · simp [hlen]
    · exact ⟨rfl,
        fun line hline =>
          walkChild_lines_pfx Hwm cfg pfx depth item (i == total - 1) v line hline,
        hspec⟩

/-! Bucket concatenation respects the fixed kind order. -/

theorem pairwise_four (S C F K : List Item)
    (hS : S.Pairwise itemLe) (hC : C.Pairwise itemLe)
    (hF : F.Pairwise itemLe) (hK : K.Pairwise itemLe)
    (hSk : ∀ it ∈ S, kindIdx it = 0) (hCk : ∀ it ∈ C, kindIdx it = 1)
    (hFk : ∀ it ∈ F, kindIdx it = 2) (hKk : ∀ it ∈ K, kindIdx it = 3) :
    (S ++ C ++ F ++ K).Pairwise itemLe := by
  rw [List.pairwise_append]
  refine ⟨?_, hK, ?_⟩
  · rw [List.pairwise_append]
    refine ⟨?_, hF, ?_⟩
    · rw [List.pairwise_append]
      refine ⟨hS, hC, ?_⟩
      intro a ha b hb
      exact Or.inl (by rw [hSk a ha, hCk b hb]; omega)
    · intro a ha b hb
      rcases List.mem_append.mp ha with h | h
      · exact Or.inl (by rw [hSk a h, hFk b hb]; omega)
      · exact Or.inl (by rw [hCk a h, hFk b hb]; omega)
  · intro a ha b hb
    rcases List.mem_append.mp ha with h | h
    · rcases List.mem_append.mp h with h2 | h2
      · exact Or.inl (by rw [hSk a h2, hKk b hb]; omega)
      · exact Or.inl (by rw [hCk a h2, hKk b hb]; omega)
    · exact Or.inl (by rw [hFk a h, hKk b hb]; omega)

/-- Without the include-private option, a kept name is not private. -/
theorem keep_imp_not_private {cfg : Config} {n : String}
    (hip : cfg.includePrivate = false) (h : keepName cfg n = true) :
    is_private n = false := by
  simp only [keepName, hip, Bool.false_or, Bool.not_eq_true'] at h
  exact h

/-! Claims. -/

/-- Claim C1, counterexample: with maxDepth = 0 the output is not only the
root line; a module holding one constant X with repr 42 also prints the
constant line, because walk_module appends classes, functions and
constants to the items list unconditionally, outside the depth guard that
protects only the submodule enumeration. -/
theorem C1_counterexample :
    render gConst 0 "m" ⟨0, false, false⟩ = ["m", "└── X = 42"] ∧
    render gConst 0 "m" ⟨0, false, false⟩ ≠ ["m"] := by
  decide

/-- Claim C1 as amended: every emitted line consists of at most maxDepth
continuation segments followed by a connector, so no line has ancestry
depth above maxDepth; and for maxDepth = 0 the output after the root line
is exactly one line per class, function and constant of the root at depth
zero, with no submodule items and hence no recursion and no member
sub-levels. -/
theorem C1_depth_bound_and_zero_depth :
    (∀ (g : ModGraph) (cfg : Config) (root : Nat) (line : String),
      line ∈ module_tree g root cfg → LineDepthLE line cfg.maxDepth) ∧
    (∀ (g : ModGraph) (root : Nat) (ip sd : Bool),
      module_tree g root ⟨0, ip, sd⟩ =
        itemLinesFrom ⟨0, ip, sd⟩ (buildItems ⟨0, ip, sd⟩ (g root) 0).length
          (buildItems ⟨0, ip, sd⟩ (g root) 0) 0 ∧
      ∀ it ∈ buildItems ⟨0, ip, sd⟩ (g root) 0, isSubItem it = false) := by
  constructor
  · intro g cfg root line h
    exact walk_depth_le g cfg (cfg.maxDepth + 1) root [] 0 [] line rfl (Nat.zero_le _) h
  · intro g root ip sd
    have hgt : ¬ (0 > (⟨0, ip, sd⟩ : Config).maxDepth) := by
      show ¬ ((0 : Nat) > 0)
      omega
    have hlt : ¬ (0 < (⟨0, ip, sd⟩ : Config).maxDepth) := by
      show ¬ ((0 : Nat) < 0)
      omega
    constructor
    · show (walk_module g ⟨0, ip, sd⟩ 1 root "" 0 []).1 = _
      simp only [walk_module]
      rw [if_neg (List.not_mem_nil root)]
      rw [if_neg hgt]
      rw [walkItems_frozen _ _ _ _ hlt]
      rw [map_empty_append]
    · intro it hit
      simp only [buildItems] at hit
      rw [if_neg hlt, List.nil_append] at hit
      rcases List.mem_append.mp hit with hcf | hk
      · rcases List.mem_append.mp hcf with hc | hf
        · rcases List.mem_map.mp hc with ⟨p, _, rfl⟩
          rfl
        · rcases List.mem_map.mp hf with ⟨p, _, rfl⟩
          rfl
      · rcases List.mem_map.mp hk with ⟨p, _, rfl⟩
        rfl

/-- Witness for C1: a concrete line of a concrete walk satisfies the
depth bound. -/
theorem C1_witness :
    ("└── X = 42" ∈ module_tree gConst 0 cfgDefault) ∧
    LineDepthLE "└── X = 42" cfgDefault.maxDepth :=
  ⟨by decide,
   C1_depth_bound_and_zero_depth.1 gConst cfgDefault 0 "└── X = 42" (by decide)⟩

/-- Claim C2: the walk terminates within the depth budget (any fuel
covering maxDepth + 1 - depth computes the same result, so the recursion
of the source needs no more than the depth bound), a revisited module
prints exactly the sentinel leaf and is never expanded a second time, and
on the concrete two-module cycle a -> a.b -> a the walk stops after one
sentinel line, which is the only sentinel in the output. -/
theorem C2_cycle_termination :
    (∀ (g : ModGraph) (cfg : Config) (f1 f2 mid : Nat) (pfx : String) (depth : Nat)
      (v : List Nat), depth ≤ cfg.maxDepth →
      cfg.maxDepth + 1 ≤ f1 + depth → cfg.maxDepth + 1 ≤ f2 + depth →
      walk_module g cfg f1 mid pfx depth v = walk_module g cfg f2 mid pfx depth v) ∧
    (∀ (g : ModGraph) (cfg : Config) (fuel mid : Nat) (pfx : String) (depth : Nat)
      (v : List Nat), mid ∈ v →
      walk_module g cfg (fuel + 1) mid pfx depth v =
        ([pfx ++ TREE_LAST ++ "(already visited)"], v)) ∧
    (render gCycle 0 "a" cfgDefault =
      ["a", "└── b", "    └── a", "        └── (already visited)"] ∧
     (module_tree gCycle 0 cfgDefault).countP isSentinel = 1) :=
  ⟨fun g cfg f1 f2 mid pfx depth v h1 h2 h3 =>
      walk_fuel_stable g cfg f1 f2 mid pfx depth v h1 h2 h3,
   fun g cfg fuel mid pfx depth v h => walk_revisit g cfg fuel mid pfx depth v h,
   by decide⟩

/-- Witness for C2: re-entry on a concrete visited set emits only the
sentinel line. -/
theorem C2_witness :
    walk_module gCycle cfgDefault 1 0 "" 0 [0] =
      ([("" : String) ++ TREE_LAST ++ "(already visited)"], [0]) :=
  C2_cycle_termination.2.1 gCycle cfgDefault 0 0 "" 0 [0] (by decide)

/-- Claim C3, counterexample: with includePrivate set, the classes Foo
and _Bar appear with _Bar first, not Foo first, because the code-point
order used by the sort places the underscore, code point 95, before every
lowercase letter. -/
theorem C3_counterexample :
    render gFooBar 0 "m" ⟨2, true, false⟩ = ["m", "├── _Bar", "└── Foo"] ∧
    render gFooBar 0 "m" ⟨2, true, false⟩ ≠ ["m", "├── Foo", "└── _Bar"] := by
  decide

/-- Claim C3 as amended: without includePrivate every listed item and
every listed class member has a name without the leading underscore, the
filter applying uniformly to all four buckets and to members; in the
Foo and _Bar scenario only Foo appears without includePrivate, and with
it both appear with _Bar ordered before Foo. -/
theorem C3_private_filter :
    (∀ (cfg : Config) (m : ModuleData) (depth : Nat) (it : Item),
      cfg.includePrivate = false → it ∈ buildItems cfg m depth →
      is_private (itemName it) = false) ∧
    (∀ (cfg : Config) (c : ClassData) (e : MemberEntry),
      cfg.includePrivate = false → e ∈ ownMembers cfg c →
      is_private e.name = false) ∧
    render gFooBar 0 "m" ⟨2, false, false⟩ = ["m", "└── Foo"] ∧
    render gFooBar 0 "m" ⟨2, true, false⟩ = ["m", "├── _Bar", "└── Foo"] := by
  refine ⟨?_, ?_, by decide, by decide⟩
  · intro cfg m depth it hip hit
    simp only [buildItems] at hit
    rcases List.mem_append.mp hit with hscf | ho
    · rcases List.mem_append.mp hscf with hsc | hf
      · rcases List.mem_append.mp hsc with hs | hc
        · by_cases hd : depth < cfg.maxDepth
          · rw [if_pos hd] at hs
            rcases List.mem_map.mp hs with ⟨p, hp, rfl⟩
            exact keep_imp_not_private hip (List.mem_filter.mp hp).2
          · rw [if_neg hd] at hs
            simp at hs
        · rcases List.mem_map.mp hc with ⟨p, hp, rfl⟩
          exact keep_imp_not_private hip (List.mem_filter.mp hp).2
      · rcases List.mem_map.mp hf with ⟨p, hp, rfl⟩
        exact keep_imp_not_private hip (List.mem_filter.mp hp).2
    · rcases List.mem_map.mp ho with ⟨p, hp, rfl⟩
      exact keep_imp_not_private hip (List.mem_filter.mp hp).2
  · intro cfg c e hip he
    simp only [ownMembers] at he
    have he2 := (mem_sortByKey (fun x : MemberEntry => pyLower x.name) e _).mp he
    have hkeep := (List.mem_filter.mp he2).2
    rcases Bool.and_eq_true_iff.mp hkeep with ⟨hka, _⟩
    rcases Bool.and_eq_true_iff.mp hka with ⟨hk, _⟩
    exact keep_imp_not_private hip hk

/-- Witness for C3: a concrete non-private item of a concrete listing. -/
theorem C3_witness :
    (Item.classItem "Foo" ⟨"m", "", []⟩ ∈ buildItems ⟨2, false, false⟩ (gFooBar 0) 0) ∧
    is_private (itemName (Item.classItem "Foo" ⟨"m", "", []⟩)) = false :=
  ⟨by decide, C3_private_filter.1 ⟨2, false, false⟩ (gFooBar 0) 0 _ rfl (by decide)⟩

/-- Claim C4: every items list is ordered by the fixed bucket sequence
submodule, class, function, constant, with names in case-insensitive
code-point order inside each bucket, and the per-class member list is
sorted the same way; connector positions are computed on the concatenated
list, so the last slot falls on the final bucket that is nonempty. -/
theorem C4_ordering :
    (∀ (cfg : Config) (m : ModuleData) (depth : Nat),
      (buildItems cfg m depth).Pairwise itemLe) ∧
    (∀ (cfg : Config) (c : ClassData),
      (ownMembers cfg c).Pairwise
        (fun a b => pyStrLe (pyLower a.name) (pyLower b.name) = true)) := by
  constructor
  · intro cfg m depth
    simp only [buildItems]
    refine pairwise_four _ _ _ _ ?_ ?_ ?_ ?_ ?_ ?_ ?_ ?_
    · by_cases hd : depth < cfg.maxDepth
      · rw [if_pos hd]
        exact ((pairwise_sortByKey byLowerName _).filter _).map _
          (fun a b hab => Or.inr ⟨rfl, hab⟩)
      · rw [if_neg hd]
        exact List.Pairwise.nil
    · exact ((pairwise_sortByKey byLowerName _).filter _).map _
        (fun a b hab => Or.inr ⟨rfl, hab⟩)
    · exact ((pairwise_sortByKey byLowerName _).filter _).map _
        (fun a b hab => Or.inr ⟨rfl, hab⟩)
    · exact ((pairwise_sortByKey byLowerName _).filter _).map _
        (fun a b hab => Or.inr ⟨rfl, hab⟩)
    · intro it h
      by_cases hd : depth < cfg.maxDepth
      · rw [if_pos hd] at h
        rcases List.mem_map.mp h with ⟨p, _, rfl⟩
        rfl
      · rw [if_neg hd] at h
        simp at h
    · intro it h
      rcases List.mem_map.mp h with ⟨p, _, rfl⟩
      rfl
    · intro it h
      rcases List.mem_map.mp h with ⟨p, _, rfl⟩
      rfl
    · intro it h
      rcases List.mem_map.mp h with ⟨p, _, rfl⟩
      rfl
  · intro cfg c
    simp only [ownMembers]
    exact pairwise_sortByKey (fun x : MemberEntry => pyLower x.name) _

/-- Claim C5: the output of one sibling listing decomposes into one block
per item; the head line of block j carries the corner connector exactly
when j is the final position and the tee connector otherwise, and every
descendant line inside block j begins with the prefix extended by the
blank segment when j is last and by the vertical-bar segment otherwise. -/
theorem C5_connectors :
    ∀ (g : ModGraph) (cfg : Config) (fuel : Nat) (pfx : String) (depth : Nat)
      (items : List Item) (v : List Nat),
      ∃ blocks : List (String × List String),
        (walkItems (fun cid p d w => walk_module g cfg fuel cid p d w)
            cfg pfx depth items.length items 0 v).1
          = (blocks.map (fun b => b.1 :: b.2)).flatten ∧
        blocks.length = items.length ∧
        BlocksSpec cfg pfx items.length items 0 blocks :=
  fun g cfg fuel pfx depth items v =>
    walkItems_blocks (fun cid p d w line h => walk_lines_pfx g cfg fuel cid p d w line h)
      cfg pfx depth items.length items 0 v

/-- Claim C6: a class or function whose dunder module differs from the
listing module contributes to no bucket of the classification, and the
items list of a module carrying such a member equals the items list
without it. -/
theorem C6_ownership :
    (∀ (modName n : String) (c : ClassData) (pre post : List (String × PyMember)),
      c.pymodule ≠ modName →
      classifyMembers modName (pre ++ (n, .cls c) :: post) =
        classifyMembers modName (pre ++ post)) ∧
    (∀ (modName n : String) (f : FuncData) (pre post : List (String × PyMember)),
      f.pymodule ≠ modName →
      classifyMembers modName (pre ++ (n, .func f) :: post) =
        classifyMembers modName (pre ++ post)) ∧
    (∀ (cfg : Config) (nm : String) (hp : Bool) (subs : List (String × Option Nat))
      (pre post : List (String × PyMember)) (n : String) (c : ClassData) (depth : Nat),
      c.pymodule ≠ nm →
      buildItems cfg ⟨nm, hp, subs, pre ++ (n, .cls c) :: post⟩ depth =
        buildItems cfg ⟨nm, hp, subs, pre ++ post⟩ depth) ∧
    (∀ (cfg : Config) (nm : String) (hp : Bool) (subs : List (String × Option Nat))
      (pre post : List (String × PyMember)) (n : String) (f : FuncData) (depth : Nat),
      f.pymodule ≠ nm →
      buildItems cfg ⟨nm, hp, subs, pre ++ (n, .func f) :: post⟩ depth =
        buildItems cfg ⟨nm, hp, subs, pre ++ post⟩ depth) := by
  refine ⟨?_, ?_, ?_, ?_⟩
  · intro modName n c pre post h
    exact classify_skip_cls modName n c (by simp [h]) pre post
  · intro modName n f pre post h
    exact classify_skip_fun modName n f (by simp [h]) pre post
  · intro cfg nm hp subs pre post n c depth h
    exact buildItems_skip_cls cfg nm hp subs pre post n c depth (by simp [h])
  · intro cfg nm hp subs pre post n f depth h
    exact buildItems_skip_fun cfg nm hp subs pre post n f depth (by simp [h])

/-- Witness for C6: a re-exported class with a foreign dunder module
leaves a concrete items list unchanged. -/
theorem C6_witness :
    buildItems cfgDefault ⟨"m", false, [], [("Re", .cls ⟨"other", "", []⟩)]⟩ 0 =
      buildItems cfgDefault ⟨"m", false, [], []⟩ 0 :=
  C6_ownership.2.2.1 cfgDefault "m" false [] [] [] "Re" ⟨"other", "", []⟩ 0 (by decide)

/-- Claim C7: a constant renders as name, equals sign and preview, while
submodules render as the bare name and classes and functions render as
the bare name when docs are off; a repr longer than 60 code points is cut
to its first 57 code points plus the three-dot marker, and the rendered
preview is then exactly 60 code points long. -/
theorem C7_preview :
    (∀ rpr : String, 60 < rpr.length →
      truncPreview rpr = String.mk (rpr.data.take 57) ++ "..." ∧
      (truncPreview rpr).length = 60) ∧
    (∀ (cfg : Config) (n p : String), itemText cfg (.constItem n p) = n ++ " = " ++ p) ∧
    (∀ (cfg : Config) (n : String) (i : Nat), itemText cfg (.submodule n i) = n) ∧
    (∀ (d : Nat) (ip : Bool) (n : String) (c : ClassData),
      itemText ⟨d, ip, false⟩ (.classItem n c) = n) ∧
    (∀ (d : Nat) (ip : Bool) (n : String) (f : FuncData),
      itemText ⟨d, ip, false⟩ (.functionItem n f) = n) := by
  refine ⟨?_, fun cfg n p => rfl, fun cfg n i => rfl, ?_, ?_⟩
  · intro rpr h
    have hlen : 57 ≤ rpr.data.length := by
      have h2 : 60 < rpr.data.length := h
      omega
    constructor
    · simp only [truncPreview]
      rw [if_pos h]
    · simp only [truncPreview]
      rw [if_pos h, str_append_length]
      have h3 : ("..." : String).length = 3 := rfl
      have h4 : (String.mk (rpr.data.take 57)).length = (rpr.data.take 57).length := rfl
      rw [h3, h4, List.length_take, Nat.min_eq_left hlen]
  · intro d ip n c
    show n ++ doc1 false c.doc = n
    rw [doc1_false, String.append_empty]
  · intro d ip n f
    show n ++ doc1 false f.doc = n
    rw [doc1_false, String.append_empty]

/-- Witness for C7: a concrete 61-code-point repr is truncated to exactly
60 code points. -/
theorem C7_witness :
    truncPreview "aaaaaaaaaaaaaaaaaaaaaaaaaaaaaaaaaaaaaaaaaaaaaaaaaaaaaaaaaaaaa" =
      String.mk (("aaaaaaaaaaaaaaaaaaaaaaaaaaaaaaaaaaaaaaaaaaaaaaaaaaaaaaaaaaaaa"
        : String).data.take 57) ++ "..." ∧
    (truncPreview "aaaaaaaaaaaaaaaaaaaaaaaaaaaaaaaaaaaaaaaaaaaaaaaaaaaaaaaaaaaaa").length
      = 60 :=
  C7_preview.1 "aaaaaaaaaaaaaaaaaaaaaaaaaaaaaaaaaaaaaaaaaaaaaaaaaaaaaaaaaaaaa" (by decide)

/-- Claim C8: the visited set only grows during a walk, it stays free of
duplicates, so no module is expanded twice; on the concrete diamond where
the root reaches d through b and through c, the subtree of d is expanded
once and the second arrival prints the sentinel, the only one in the
output. -/
theorem C8_no_reexpansion :
    (∀ (g : ModGraph) (cfg : Config) (fuel mid : Nat) (pfx : String) (depth : Nat)
      (v : List Nat) (x : Nat), x ∈ v → x ∈ (walk_module g cfg fuel mid pfx depth v).2) ∧
    (∀ (g : ModGraph) (cfg : Config) (fuel mid : Nat) (pfx : String) (depth : Nat)
      (v : List Nat), v.Nodup → (walk_module g cfg fuel mid pfx depth v).2.Nodup) ∧
    (render gDiamond 0 "r" cfgDefault =
      ["r", "├── b", "│   └── d", "└── c", "    └── d", "        └── (already visited)"] ∧
     (module_tree gDiamond 0 cfgDefault).countP isSentinel = 1) :=
  ⟨fun g cfg fuel mid pfx depth v x hx => walk_visited_sub g cfg fuel mid pfx depth v x hx,
   fun g cfg fuel mid pfx depth v hv => walk_visited_nodup g cfg fuel mid pfx depth v hv,
   by decide⟩

/-- Witness for C8: the visited set of a concrete walk has no
duplicates. -/
theorem C8_witness :
    (walk_module gDiamond cfgDefault 3 0 "" 0 []).2.Nodup :=
  C8_no_reexpansion.2.1 gDiamond cfgDefault 3 0 "" 0 [] (by decide)

/-- Claim C9: a child whose import raises is dropped from the submodule
enumeration, so the items list is the one of the module without that
child and the walk continues over the remaining siblings; on the concrete
package with a failing child and a healthy child, the output is the
partial tree of the healthy child alone. -/
theorem C9_error_swallow :
    (∀ (nm : String) (hp : Bool) (n : String) (pre post : List (String × Option Nat))
      (ms : List (String × PyMember)),
      iter_submodules ⟨nm, hp, pre ++ (n, none) :: post, ms⟩ =
        iter_submodules ⟨nm, hp, pre ++ post, ms⟩) ∧
    (∀ (cfg : Config) (depth : Nat) (nm : String) (hp : Bool) (n : String)
      (pre post : List (String × Option Nat)) (ms : List (String × PyMember)),
      buildItems cfg ⟨nm, hp, pre ++ (n, none) :: post, ms⟩ depth =
        buildItems cfg ⟨nm, hp, pre ++ post, ms⟩ depth) ∧
    render gBadImport 0 "m" cfgDefault = ["m", "└── ok", "    └── f"] :=
  ⟨fun nm hp n pre post ms => iter_skip_none nm hp n pre post ms,
   fun cfg depth nm hp n pre post ms => buildItems_skip_none cfg depth nm hp n pre post ms,
   by decide⟩

/-- Claim C10: with docs off the whole output is unchanged when every
docstring in the graph is erased, so no line depends on any docstring;
the doc suffix function yields the empty string when docs are off, and
the rendered text appends it only for classes and functions, never for
submodules or constants. -/
theorem C10_doc_suffix :
    (∀ (g : ModGraph) (root : Nat) (cfg : Config), cfg.showDoc = false →
      module_tree g root cfg = module_tree (eraseDocs g) root cfg) ∧
    (∀ d : String, doc1 false d = "") ∧
    (∀ (cfg : Config) (n : String) (i : Nat), itemText cfg (.submodule n i) = n) ∧
    (∀ (cfg : Config) (n p : String), itemText cfg (.constItem n p) = n ++ " = " ++ p) ∧
    (∀ (cfg : Config) (n : String) (c : ClassData),
      itemText cfg (.classItem n c) = n ++ doc1 cfg.showDoc c.doc) ∧
    (∀ (cfg : Config) (n : String) (f : FuncData),
      itemText cfg (.functionItem n f) = n ++ doc1 cfg.showDoc f.doc) := by
  refine ⟨?_, fun d => rfl, fun cfg n i => rfl, fun cfg n p => rfl, fun cfg n c => rfl,
    fun cfg n f => rfl⟩
  intro g root cfg hsd
  simp only [module_tree]
  rw [walk_erase g cfg hsd (cfg.maxDepth + 1) root "" 0 []]

/-- Witness for C10: a concrete graph with a function docstring renders
identically to its doc-free counterpart when docs are off. -/
theorem C10_witness :
    module_tree gBadImport 0 cfgDefault = module_tree (eraseDocs gBadImport) 0 cfgDefault :=
  C10_doc_suffix.1 gBadImport 0 cfgDefault rfl

end ModuleTree
